import Mathlib

/-!
Verification of the smart-pad analysis core (`src/PetPadMonitor.tsx`).

The TypeScript number arithmetic is embedded over `ℚ` (exact rational
arithmetic); `Math.round` is `jsRound` (round half toward positive
infinity), `Math.floor` is `Int.floor`, and the JS `%` remainder is
`jsMod` (truncated division remainder).
-/

namespace SmartPad

/-- JS `Math.round`: nearest integer, ties toward positive infinity. -/
def jsRound (x : ℚ) : ℤ := ⌊x + 1/2⌋

/-- Truncation toward zero, as JS coercion of a quotient. -/
def truncQ (x : ℚ) : ℤ := if 0 ≤ x then ⌊x⌋ else ⌈x⌉

/-- JS `%` remainder (sign of the dividend). -/
def jsMod (x y : ℚ) : ℚ := x - y * truncQ (x / y)

/-- `clamp(v, min, max) = Math.max(min, Math.min(max, v))` on rationals. -/
def clampQ (x lo hi : ℚ) : ℚ := max lo (min hi x)

/-- `clamp(v, min, max) = Math.max(min, Math.min(max, v))` on integers. -/
def clampZ (x lo hi : ℤ) : ℤ := max lo (min hi x)

/-- HSV triple: hue in degrees, saturation and value in percent. -/
structure HSV where
  h : ℚ
  s : ℚ
  v : ℚ
deriving DecidableEq

/-- `rgbToHsvDeg` from the source: standard max/min/delta RGB→HSV. -/
def rgbToHsvDeg (R G B : ℚ) : HSV :=
  let r := R / 255
  let g := G / 255
  let b := B / 255
  let mx := max r (max g b)
  let mn := min r (min g b)
  let d := mx - mn
  let hDeg : ℚ :=
    if d ≠ 0 then
      let base :=
        if mx = r then jsMod ((g - b) / d) 6
        else if mx = g then (b - r) / d + 2
        else (r - g) / d + 4
      let scaled := base * 60
      if scaled < 0 then scaled + 360 else scaled
    else 0
  let s : ℚ := if mx = 0 then 0 else d / mx
  ⟨hDeg, s * 100, mx * 100⟩

/-- `classifyByHSV` from the source: 4-tier glucose level from hue/value. -/
def classifyByHSV (h v : ℚ) : ℕ :=
  if h ≥ 160 then 0
  else if h ≥ 60 ∧ h ≤ 140 then (if v ≥ 75 then 1 else 2)
  else if h < 60 then 3
  else 2

/-- Result of the pH classifier: optional pH plus a user-facing label. -/
structure PHResult where
  ph : Option ℕ
  label : String
deriving DecidableEq

/-- `classifyPHByHSV` from the source: guard clauses then hue bands. -/
def classifyPHByHSV (h s v : ℚ) : PHResult :=
  if v < 25 then ⟨none, "조도가 너무 낮아 측정 불가"⟩
  else if s < 8 then ⟨none, "채도가 너무 낮아 측정 불가"⟩
  else if h ≥ 20 ∧ h < 45 then ⟨some 5, "pH 5 (오렌지)"⟩
  else if h ≥ 45 ∧ h < 58 then ⟨some 6, "pH 6 (노랑)"⟩
  else if h ≥ 58 ∧ h < 80 then ⟨some 7, "pH 7 (황록)"⟩
  else if h ≥ 80 ∧ h < 150 then ⟨some 8, "pH 8 (녹색)"⟩
  else if h ≥ 150 ∧ h ≤ 190 then ⟨some 9, "pH 9 (청록)"⟩
  else if h < 20 then ⟨some 5, "pH 5 (추정)"⟩
  else ⟨some 9, "pH 9 (추정)"⟩

/-- The `WEIGHTS` constant object from the source. -/
structure Weights where
  nightTime : ℚ
  lateNight : ℚ
  afterMeal : ℚ
  waterPer500ml : ℚ
  elapsedPerMin : ℚ

/-- `WEIGHTS` values from the source. -/
def WEIGHTS : Weights := ⟨1.2, 1.1, 1.2, 1/500, 1/60⟩

/-- Situational inputs to `applyContextFactors`. -/
structure ContextInputs where
  hour : ℚ
  afterMealMin : ℚ
  waterMl : ℚ
  elapsedMin : ℚ

/-- `applyContextFactors` from the source: adjust the blue channel by
time-of-day, meal and dilution factors, round, then clamp to [0,255]. -/
def applyContextFactors (b : ℚ) (c : ContextInputs) : ℤ :=
  let isNight := c.hour ≥ 0 ∧ c.hour ≤ 6
  let isLate := c.hour ≥ 22
  let timeFactor : ℚ := if isNight then WEIGHTS.nightTime else if isLate then WEIGHTS.lateNight else 1
  let mealFactor : ℚ := if c.afterMealMin < 60 then WEIGHTS.afterMeal else 1
  let dilutionFactor : ℚ :=
    1 + c.waterMl * WEIGHTS.waterPer500ml + c.elapsedMin * WEIGHTS.elapsedPerMin
  clampZ (jsRound (b * timeFactor * mealFactor * dilutionFactor)) 0 255

/-- Spec-side definition, from the spec's words: the glucose rule set
written as first-match-wins ordered rules over (h, v). -/
def glucoseRulesSpec (h v : ℚ) : ℕ :=
  if 160 ≤ h then 0
  else if 60 ≤ h ∧ h ≤ 140 then (if 75 ≤ v then 1 else 2)
  else if h < 60 then 3
  else 2

/-- Spec-side definition, from the spec's words: lower-inclusive hue bands
for the pH value, with the out-of-range estimates. -/
def phBandSpec (h : ℚ) : ℕ :=
  if 20 ≤ h ∧ h < 45 then 5
  else if 45 ≤ h ∧ h < 58 then 6
  else if 58 ≤ h ∧ h < 80 then 7
  else if 80 ≤ h ∧ h < 150 then 8
  else if 150 ≤ h ∧ h ≤ 190 then 9
  else if h < 20 then 5
  else 9

/-- Spec-side definition, from the spec's words: timeFactor. -/
def timeFactorSpec (hour : ℚ) : ℚ :=
  if 0 ≤ hour ∧ hour ≤ 6 then 1.2 else if 22 ≤ hour then 1.1 else 1

/-- Spec-side definition, from the spec's words: mealFactor. -/
def mealFactorSpec (amm : ℚ) : ℚ := if amm < 60 then 1.2 else 1

/-- Spec-side definition, from the spec's words: dilutionFactor. -/
def dilutionFactorSpec (w e : ℚ) : ℚ := 1 + w / 500 + e / 60

/-- Spec-side definition, from the spec's words:
`adjusted = round(clamp(b·timeFactor·mealFactor·dilutionFactor, 0, 255))`. -/
def adjustedSpec (b : ℚ) (c : ContextInputs) : ℤ :=
  jsRound (clampQ (b * timeFactorSpec c.hour * mealFactorSpec c.afterMealMin *
    dilutionFactorSpec c.waterMl c.elapsedMin) 0 255)

lemma clampZ_jsRound_comm (x : ℚ) : clampZ (jsRound x) 0 255 = jsRound (clampQ x 0 255) := by
  unfold clampZ clampQ jsRound
  rcases le_total x 0 with hx | hx
  · have h1 : (⌊x + 1/2⌋ : ℤ) ≤ 0 := by
      rw [Int.floor_le_iff]
      push_cast
      linarith
    have hminQ : min (255 : ℚ) x = x := min_eq_right (by linarith)
    have hmaxQ : max (0 : ℚ) x = 0 := max_eq_left hx
    have hminZ : min (255 : ℤ) ⌊x + 1/2⌋ = ⌊x + 1/2⌋ := min_eq_right (by omega)
    have hfl : (⌊(0 : ℚ) + 1/2⌋ : ℤ) = 0 := by
      rw [Int.floor_eq_iff]
      norm_num
    rw [hminQ, hmaxQ, hminZ, hfl]
    omega
  · rcases le_total x 255 with hx2 | hx2
    · have hminQ : min (255 : ℚ) x = x := min_eq_right hx2
      have hmaxQ : max (0 : ℚ) x = x := max_eq_right hx
      have h0 : (0 : ℤ) ≤ ⌊x + 1/2⌋ := by
        rw [Int.le_floor]
        push_cast
        linarith
      have h255 : (⌊x + 1/2⌋ : ℤ) ≤ 255 := by
        rw [Int.floor_le_iff]
        push_cast
        linarith
      rw [hminQ, hmaxQ]
      omega
    · have hminQ : min (255 : ℚ) x = 255 := min_eq_left hx2
      have h255 : (255 : ℤ) ≤ ⌊x + 1/2⌋ := by
        rw [Int.le_floor]
        push_cast
        linarith
      have hfl : (⌊(255 : ℚ) + 1/2⌋ : ℤ) = 255 := by
        rw [Int.floor_eq_iff]
        norm_num
      rw [hminQ]
      have hmaxQ : max (0 : ℚ) 255 = 255 := by norm_num
      rw [hmaxQ, hfl]
      omega

/-- C1: the glucose classifier realizes the first-match-wins ordered rules
over (h, v): h ≥ 160 → level 0; else 60 ≤ h ≤ 140 → level 1 when v ≥ 75
and level 2 otherwise; else h < 60 → level 3; else (140 < h < 160) →
level 2. It is total (a level is returned for all rational h, v), with the
boundary cases h = 160 → 0, 140 < h < 160 → 2, h = 60 → the v-dependent
branch, and h = 59.99 → 3. -/
theorem classifyByHSV_rules :
    (∀ h v : ℚ, classifyByHSV h v = glucoseRulesSpec h v)
    ∧ (∀ v : ℚ, classifyByHSV 160 v = 0)
    ∧ (∀ h v : ℚ, 140 < h → h < 160 → classifyByHSV h v = 2)
    ∧ (∀ v : ℚ, classifyByHSV 60 v = if 75 ≤ v then 1 else 2)
    ∧ (∀ v : ℚ, classifyByHSV (5999/100) v = 3) := by
  refine ⟨?_, ?_, ?_, ?_, ?_⟩
  · intro h v
    unfold classifyByHSV glucoseRulesSpec
    simp only [ge_iff_le]
  · intro v
    unfold classifyByHSV
    norm_num
  · intro h v h1 h2
    unfold classifyByHSV
    have n1 : ¬ h ≥ 160 := by linarith
    have n2 : ¬ (h ≥ 60 ∧ h ≤ 140) := by
      rintro ⟨-, hb⟩
      linarith
    have n3 : ¬ h < 60 := by linarith
    rw [if_neg n1, if_neg n2, if_neg n3]
  · intro v
    unfold classifyByHSV
    norm_num [ge_iff_le]
  · intro v
    unfold classifyByHSV
    norm_num

/-- Witness for C1 at h = 150, v = 50 (strictly between 140 and 160). -/
theorem classifyByHSV_rules_witness :
    (140 : ℚ) < 150 ∧ (150 : ℚ) < 160 ∧ classifyByHSV 150 50 = 2 :=
  ⟨by norm_num, by norm_num, classifyByHSV_rules.2.2.1 150 50 (by norm_num) (by norm_num)⟩

/-- C2: the pH classifier always returns a result object; its ph field is
null exactly when v < 25 or s < 8 (guards evaluated in that order, with
the distinct "too dark" and "too desaturated" labels); otherwise ph is
the lower-inclusive hue-band value. Boundary cases: v = 24.9 → null for
all h, s; (v = 25, s = 7.9) → null; h = 44.9 → 5; h = 45 → 6. -/
theorem classifyPHByHSV_spec :
    (∀ h s v : ℚ, (classifyPHByHSV h s v).ph = none ↔ (v < 25 ∨ s < 8))
    ∧ (∀ h s v : ℚ, ¬ v < 25 → ¬ s < 8 →
        (classifyPHByHSV h s v).ph = some (phBandSpec h))
    ∧ (∀ h s v : ℚ, v < 25 →
        classifyPHByHSV h s v = ⟨none, "조도가 너무 낮아 측정 불가"⟩)
    ∧ (∀ h s v : ℚ, ¬ v < 25 → s < 8 →
        classifyPHByHSV h s v = ⟨none, "채도가 너무 낮아 측정 불가"⟩)
    ∧ (∀ h s : ℚ, (classifyPHByHSV h s (249/10)).ph = none)
    ∧ ((classifyPHByHSV 100 (79/10) 25).ph = none)
    ∧ (∀ s v : ℚ, ¬ v < 25 → ¬ s < 8 →
        (classifyPHByHSV (449/10) s v).ph = some 5
        ∧ (classifyPHByHSV 45 s v).ph = some 6) := by
  have hband : ∀ h s v : ℚ, ¬ v < 25 → ¬ s < 8 →
      (classifyPHByHSV h s v).ph = some (phBandSpec h) := by
    intro h s v hv hs
    unfold classifyPHByHSV phBandSpec
    rw [if_neg hv, if_neg hs]
    simp only [ge_iff_le]
    split_ifs <;> rfl
  refine ⟨?_, hband, ?_, ?_, ?_, ?_, ?_⟩
  · intro h s v
    constructor
    · intro hnone
      by_contra hcon
      push_neg at hcon
      rw [hband h s v (not_lt.mpr hcon.1) (not_lt.mpr hcon.2)] at hnone
      exact Option.some_ne_none _ hnone
    · intro hor
      unfold classifyPHByHSV
      rcases hor with hv | hs
      · rw [if_pos hv]
      · by_cases hv : v < 25
        · rw [if_pos hv]
        · rw [if_neg hv, if_pos hs]
  · intro h s v hv
    unfold classifyPHByHSV
    rw [if_pos hv]
  · intro h s v hv hs
    unfold classifyPHByHSV
    rw [if_neg hv, if_pos hs]
  · intro h s
    unfold classifyPHByHSV
    norm_num
  · unfold classifyPHByHSV
    norm_num
  · intro s v hv hs
    constructor
    · rw [hband _ s v hv hs]
      unfold phBandSpec
      norm_num
    · rw [hband _ s v hv hs]
      unfold phBandSpec
      norm_num

/-- Witness for C2 at h = 100, s = 50, v = 50: the guards pass and the
hue-band value is returned (band [80,150) → 8). -/
theorem classifyPHByHSV_spec_witness :
    ¬ (50 : ℚ) < 25 ∧ ¬ (50 : ℚ) < 8
    ∧ (classifyPHByHSV 100 50 50).ph = some (phBandSpec 100) :=
  ⟨by norm_num, by norm_num, classifyPHByHSV_spec.2.1 100 50 50 (by norm_num) (by norm_num)⟩

/-- C5: for every blue value and context inputs, the context adjuster
equals round(clamp(b·timeFactor·mealFactor·dilutionFactor, 0, 255)) with
timeFactor 1.2 on hour ∈ [0,6], else 1.1 on hour ≥ 22, else 1 (night
check first); mealFactor 1.2 when afterMealMinutes < 60 else 1; and
dilutionFactor 1 + waterMl/500 + elapsedMinutes/60. -/
theorem applyContextFactors_spec :
    ∀ (b : ℚ) (c : ContextInputs), applyContextFactors b c = adjustedSpec b c := by
  intro b c
  unfold applyContextFactors adjustedSpec
  rw [clampZ_jsRound_comm]
  congr 2
  unfold timeFactorSpec mealFactorSpec dilutionFactorSpec
  simp only [ge_iff_le, WEIGHTS]
  ring_nf

/-- C8: the uniform sample (R=50, G=200, B=50) converts to HSV
h = 120, s = 75, v = 4000/51 (= 20000/255 ≈ 78.4); the glucose classifier
returns level 1 on that h, v; and the pH classifier returns ph = 8. -/
theorem endToEnd_green :
    rgbToHsvDeg 50 200 50 = ⟨120, 75, 4000/51⟩
    ∧ (78 ≤ (rgbToHsvDeg 50 200 50).v ∧ (rgbToHsvDeg 50 200 50).v < 79)
    ∧ classifyByHSV (rgbToHsvDeg 50 200 50).h (rgbToHsvDeg 50 200 50).v = 1
    ∧ (classifyPHByHSV (rgbToHsvDeg 50 200 50).h (rgbToHsvDeg 50 200 50).s
        (rgbToHsvDeg 50 200 50).v).ph = some 8 := by
  have hconv : rgbToHsvDeg 50 200 50 = ⟨120, 75, 4000/51⟩ := by
    unfold rgbToHsvDeg
    norm_num [max_def, min_def]
  refine ⟨hconv, ?_, ?_, ?_⟩
  · rw [hconv]
    norm_num
  · rw [hconv]
    unfold classifyByHSV
    norm_num
  · rw [hconv]
    unfold classifyPHByHSV
    norm_num

/-- C9: every achromatic input R = G = B yields s = 0 and h = 0 (whatever
the resulting v), and the degenerate all-zero sample yields exactly
h = 0, s = 0, v = 0, as an ordinary (non-error) value. -/
theorem achromatic_hsv :
    (∀ x : ℚ, (rgbToHsvDeg x x x).h = 0 ∧ (rgbToHsvDeg x x x).s = 0)
    ∧ rgbToHsvDeg 0 0 0 = ⟨0, 0, 0⟩ := by
  constructor
  · intro x
    unfold rgbToHsvDeg
    simp [max_self, min_self]
  · unfold rgbToHsvDeg
    norm_num [max_def, min_def]

lemma clampZ_bounds (x : ℤ) : 0 ≤ clampZ x 0 255 ∧ clampZ x 0 255 ≤ 255 := by
  unfold clampZ
  omega

lemma clampZ_mono {x y : ℤ} (h : x ≤ y) : clampZ x 0 255 ≤ clampZ y 0 255 := by
  unfold clampZ
  omega

lemma timeFactor_nonneg (c : ContextInputs) :
    0 ≤ (if c.hour ≥ 0 ∧ c.hour ≤ 6 then WEIGHTS.nightTime
         else if c.hour ≥ 22 then WEIGHTS.lateNight else 1) := by
  split_ifs <;> norm_num [WEIGHTS]

lemma mealFactor_nonneg (c : ContextInputs) :
    0 ≤ (if c.afterMealMin < 60 then WEIGHTS.afterMeal else 1) := by
  split_ifs <;> norm_num [WEIGHTS]

/-- C6: with b, hour and afterMealMinutes held fixed, b ∈ [0,255] and
nonnegative waterMl/elapsedMinutes, the adjusted output is non-decreasing
in waterMl and in elapsedMinutes, and always lies in [0,255]. -/
theorem applyContextFactors_monotone_bounds :
    ∀ (b : ℚ) (c : ContextInputs) (w' e' : ℚ),
      0 ≤ b → b ≤ 255 → 0 ≤ c.waterMl → 0 ≤ c.elapsedMin →
      c.waterMl ≤ w' → c.elapsedMin ≤ e' →
      applyContextFactors b c ≤ applyContextFactors b { c with waterMl := w' }
      ∧ applyContextFactors b c ≤ applyContextFactors b { c with elapsedMin := e' }
      ∧ 0 ≤ applyContextFactors b c ∧ applyContextFactors b c ≤ 255 := by
  intro b c w' e' hb0 _hb255 _hw0 _he0 hww hee
  have htf := timeFactor_nonneg c
  have hmf := mealFactor_nonneg c
  have hK : 0 ≤ b * (if c.hour ≥ 0 ∧ c.hour ≤ 6 then WEIGHTS.nightTime
      else if c.hour ≥ 22 then WEIGHTS.lateNight else 1) *
      (if c.afterMealMin < 60 then WEIGHTS.afterMeal else 1) :=
    mul_nonneg (mul_nonneg hb0 htf) hmf
  refine ⟨?_, ?_, ?_, ?_⟩
  · unfold applyContextFactors
    apply clampZ_mono
    unfold jsRound
    apply Int.floor_le_floor
    have hdf : 1 + c.waterMl * WEIGHTS.waterPer500ml + c.elapsedMin * WEIGHTS.elapsedPerMin ≤
        1 + w' * WEIGHTS.waterPer500ml + c.elapsedMin * WEIGHTS.elapsedPerMin := by
      have : c.waterMl * WEIGHTS.waterPer500ml ≤ w' * WEIGHTS.waterPer500ml := by
        apply mul_le_mul_of_nonneg_right hww
        norm_num [WEIGHTS]
      linarith
    have := mul_le_mul_of_nonneg_left hdf hK
    simp only
    linarith
  · unfold applyContextFactors
    apply clampZ_mono
    unfold jsRound
    apply Int.floor_le_floor
    have hdf : 1 + c.waterMl * WEIGHTS.waterPer500ml + c.elapsedMin * WEIGHTS.elapsedPerMin ≤
        1 + c.waterMl * WEIGHTS.waterPer500ml + e' * WEIGHTS.elapsedPerMin := by
      have : c.elapsedMin * WEIGHTS.elapsedPerMin ≤ e' * WEIGHTS.elapsedPerMin := by
        apply mul_le_mul_of_nonneg_right hee
        norm_num [WEIGHTS]
      linarith
    have := mul_le_mul_of_nonneg_left hdf hK
    simp only
    linarith
  · exact (clampZ_bounds _).1
  · exact (clampZ_bounds _).2

/-- Witness for C6 at b = 100, hour = 3, afterMeal = 30, water 100 → 200,
elapsed 60 → 120. -/
theorem applyContextFactors_monotone_bounds_witness :
    applyContextFactors 100 ⟨3, 30, 100, 60⟩ ≤
      applyContextFactors 100 { (⟨3, 30, 100, 60⟩ : ContextInputs) with waterMl := 200 }
    ∧ applyContextFactors 100 ⟨3, 30, 100, 60⟩ ≤
      applyContextFactors 100 { (⟨3, 30, 100, 60⟩ : ContextInputs) with elapsedMin := 120 }
    ∧ 0 ≤ applyContextFactors 100 ⟨3, 30, 100, 60⟩
    ∧ applyContextFactors 100 ⟨3, 30, 100, 60⟩ ≤ 255 :=
  applyContextFactors_monotone_bounds 100 ⟨3, 30, 100, 60⟩ 200 120
    (by norm_num) (by norm_num) (by norm_num) (by norm_num) (by norm_num) (by norm_num)

/-! ## History store: per-day records, shallow merge, upsert-and-resort -/

/-- Persisted history record: `date` is the identity key, `timestamp` the
ordering instant (embedded as epoch milliseconds, the value the source
compares via `new Date(ts).getTime()`). The optional fields model JS keys
that may be absent; `ph` may be present-with-null (`some none`). -/
structure HistoryEntry where
  date : String
  timestamp : ℤ
  diagnosis : Option String := none
  level : Option ℕ := none
  ph : Option (Option ℕ) := none
deriving DecidableEq

/-- JS object spread `{ ...old, ...payload }` on history records: keys
present in the payload overwrite (including an explicit null), absent keys
keep the old value. -/
def mergeEntry (old p : HistoryEntry) : HistoryEntry :=
  { date := p.date
    timestamp := p.timestamp
    diagnosis := match p.diagnosis with | some x => some x | none => old.diagnosis
    level := match p.level with | some x => some x | none => old.level
    ph := match p.ph with | some x => some x | none => old.ph }

/-- Stable insertion: place `e` after every element strictly below it. -/
def insertBy {α : Type} (lt : α → α → Bool) (e : α) : List α → List α
  | [] => [e]
  | y :: ys => if lt y e then y :: insertBy lt e ys else e :: y :: ys

/-- Stable insertion sort, modelling `Array.prototype.sort` with a
strict-order comparator (ES2019 sort is stable). -/
def insSort {α : Type} (lt : α → α → Bool) : List α → List α
  | [] => []
  | e :: rest => insertBy lt e (insSort lt rest)

lemma insertBy_perm {α : Type} (lt : α → α → Bool) (e : α) (l : List α) :
    List.Perm (insertBy lt e l) (e :: l) := by
  induction l with
  | nil => simp [insertBy]
  | cons y ys ih =>
    unfold insertBy
    by_cases h : lt y e
    · rw [if_pos h]
      exact (ih.cons y).trans (List.Perm.swap e y ys)
    · rw [if_neg h]

lemma insSort_perm {α : Type} (lt : α → α → Bool) (l : List α) :
    List.Perm (insSort lt l) l := by
  induction l with
  | nil => simp [insSort]
  | cons e rest ih =>
    unfold insSort
    exact (insertBy_perm lt e (insSort lt rest)).trans (ih.cons e)

lemma insertBy_mem {α : Type} {lt : α → α → Bool} {e x : α} {l : List α}
    (hx : x ∈ insertBy lt e l) : x = e ∨ x ∈ l := by
  have := (insertBy_perm lt e l).mem_iff.mp hx
  simpa using this

lemma insertBy_pairwise {α : Type} (lt : α → α → Bool)
    (hasymm : ∀ a b, lt a b = true → lt b a = false)
    (htrans : ∀ a b c, lt b a = false → lt c b = false → lt c a = false)
    (e : α) (l : List α) (h : l.Pairwise (fun a b => lt b a = false)) :
    (insertBy lt e l).Pairwise (fun a b => lt b a = false) := by
  induction l with
  | nil => simp [insertBy]
  | cons y ys ih =>
    rw [List.pairwise_cons] at h
    obtain ⟨hy, hys⟩ := h
    unfold insertBy
    by_cases hc : lt y e
    · rw [if_pos hc]
      rw [List.pairwise_cons]
      refine ⟨?_, ih hys⟩
      intro z hz
      rcases insertBy_mem hz with rfl | hz'
      · exact hasymm y z hc
      · exact hy z hz'
    · rw [if_neg hc]
      rw [List.pairwise_cons]
      refine ⟨?_, List.pairwise_cons.mpr ⟨hy, hys⟩⟩
      intro z hz
      have hye : lt y e = false := Bool.not_eq_true _ |>.mp hc
      rcases List.mem_cons.mp hz with rfl | hz'
      · exact hye
      · exact htrans e y z hye (hy z hz')

lemma insSort_pairwise {α : Type} (lt : α → α → Bool)
    (hasymm : ∀ a b, lt a b = true → lt b a = false)
    (htrans : ∀ a b c, lt b a = false → lt c b = false → lt c a = false)
    (l : List α) : (insSort lt l).Pairwise (fun a b => lt b a = false) := by
  induction l with
  | nil => simp [insSort]
  | cons e rest ih =>
    unfold insSort
    exact insertBy_pairwise lt hasymm htrans e _ ih

/-- Comparator used by the history sort: ascending by timestamp. -/
def ltTs (a b : HistoryEntry) : Bool := decide (a.timestamp < b.timestamp)

/-- The resort done after each upsert (and in the derived views). -/
def sortByTs (l : List HistoryEntry) : List HistoryEntry := insSort ltTs l

lemma ltTs_asymm : ∀ a b, ltTs a b = true → ltTs b a = false := by
  intro a b h
  simp only [ltTs, decide_eq_true_eq] at h
  simp only [ltTs, decide_eq_false_iff_not]
  omega

lemma ltTs_trans : ∀ a b c, ltTs b a = false → ltTs c b = false → ltTs c a = false := by
  intro a b c h1 h2
  simp only [ltTs, decide_eq_false_iff_not] at h1 h2 ⊢
  omega

lemma sortByTs_perm (l : List HistoryEntry) : List.Perm (sortByTs l) l :=
  insSort_perm ltTs l

lemma sortByTs_sorted (l : List HistoryEntry) :
    (sortByTs l).Pairwise (fun a b => a.timestamp ≤ b.timestamp) := by
  have h := insSort_pairwise ltTs ltTs_asymm ltTs_trans l
  refine h.imp ?_
  intro a b hab
  simp only [ltTs, decide_eq_false_iff_not] at hab
  omega

/-- `findIndex` + in-place replace (first matching date) or `push`,
exactly as `upsertHistoryEntry` does before resorting. -/
def updateFirstByDate (p : HistoryEntry) : List HistoryEntry → List HistoryEntry
  | [] => [p]
  | e :: rest =>
    if e.date = p.date then mergeEntry e p :: rest
    else e :: updateFirstByDate p rest

/-- `upsertHistoryEntry` from the source: merge-or-insert by date, then
resort the whole collection ascending by timestamp. -/
def upsertHistoryEntry (list : List HistoryEntry) (payload : HistoryEntry) : List HistoryEntry :=
  sortByTs (updateFirstByDate payload list)

/-- A sequence of upserts applied to the initially-empty log. -/
def upsertAll (ps : List HistoryEntry) : List HistoryEntry :=
  ps.foldl upsertHistoryEntry []

lemma updateFirst_not_found (p : HistoryEntry) :
    ∀ l : List HistoryEntry, (∀ e ∈ l, e.date ≠ p.date) →
      updateFirstByDate p l = l ++ [p] := by
  intro l
  induction l with
  | nil => intro _; rfl
  | cons e rest ih =>
    intro h
    unfold updateFirstByDate
    rw [if_neg (h e (List.mem_cons_self e rest))]
    rw [ih (fun x hx => h x (List.mem_cons_of_mem e hx))]
    rfl

lemma updateFirst_found (p e : HistoryEntry) :
    ∀ l1 l2 : List HistoryEntry, (∀ x ∈ l1, x.date ≠ p.date) → e.date = p.date →
      updateFirstByDate p (l1 ++ e :: l2) = l1 ++ mergeEntry e p :: l2 := by
  intro l1
  induction l1 with
  | nil =>
    intro l2 _ he
    rw [List.nil_append, List.nil_append]
    simp only [updateFirstByDate]
    rw [if_pos he]
  | cons y ys ih =>
    intro l2 h he
    have hy : y.date ≠ p.date := h y (List.mem_cons_self y ys)
    show updateFirstByDate p (y :: (ys ++ e :: l2)) = y :: (ys ++ mergeEntry e p :: l2)
    unfold updateFirstByDate
    rw [if_neg hy, ih l2 (fun x hx => h x (List.mem_cons_of_mem y hx)) he]

lemma mem_updateFirst (p : HistoryEntry) :
    ∀ (l : List HistoryEntry) (x : HistoryEntry), x ∈ updateFirstByDate p l →
      x ∈ l ∨ (x.date = p.date ∧ x.timestamp = p.timestamp) := by
  intro l
  induction l with
  | nil =>
    intro x hx
    simp only [updateFirstByDate, List.mem_singleton] at hx
    subst hx
    exact Or.inr ⟨rfl, rfl⟩
  | cons e rest ih =>
    intro x hx
    unfold updateFirstByDate at hx
    by_cases hc : e.date = p.date
    · rw [if_pos hc] at hx
      rcases List.mem_cons.mp hx with rfl | hx'
      · exact Or.inr ⟨rfl, rfl⟩
      · exact Or.inl (List.mem_cons_of_mem _ hx')
    · rw [if_neg hc] at hx
      rcases List.mem_cons.mp hx with rfl | hx'
      · exact Or.inl (List.mem_cons_self _ _)
      · rcases ih x hx' with h | h
        · exact Or.inl (List.mem_cons_of_mem _ h)
        · exact Or.inr h

lemma updateFirst_dates_nodup (p : HistoryEntry) :
    ∀ l : List HistoryEntry, ((l.map fun e => e.date).Nodup) →
      (((updateFirstByDate p l).map fun e => e.date).Nodup) := by
  intro l
  induction l with
  | nil => intro _; simp [updateFirstByDate]
  | cons e rest ih =>
    intro h
    rw [List.map_cons, List.nodup_cons] at h
    obtain ⟨he, hrest⟩ := h
    unfold updateFirstByDate
    by_cases hc : e.date = p.date
    · rw [if_pos hc]
      rw [List.map_cons, List.nodup_cons]
      refine ⟨?_, hrest⟩
      show (mergeEntry e p).date ∉ rest.map fun e => e.date
      have : (mergeEntry e p).date = e.date := by rw [hc]; rfl
      rw [this]
      exact he
    · rw [if_neg hc]
      rw [List.map_cons, List.nodup_cons]
      refine ⟨?_, ih hrest⟩
      intro hmem
      rcases List.mem_map.mp hmem with ⟨x, hxmem, hxdate⟩
      rcases mem_updateFirst p rest x hxmem with hx | hx
      · exact he (List.mem_map.mpr ⟨x, hx, hxdate⟩)
      · exact hc (hxdate ▸ hx.1)

lemma updateFirst_length_found (p : HistoryEntry) :
    ∀ l : List HistoryEntry, (∃ e ∈ l, e.date = p.date) →
      (updateFirstByDate p l).length = l.length := by
  intro l
  induction l with
  | nil => rintro ⟨e, he, -⟩; exact absurd he (List.not_mem_nil e)
  | cons e rest ih =>
    rintro ⟨x, hx, hxd⟩
    unfold updateFirstByDate
    by_cases hc : e.date = p.date
    · rw [if_pos hc, List.length_cons, List.length_cons]
    · rw [if_neg hc, List.length_cons, List.length_cons]
      rcases List.mem_cons.mp hx with rfl | hx'
      · exact absurd hxd hc
      · rw [ih ⟨x, hx', hxd⟩]

/-- C3 (shallow merge keyed by date): the payload's present keys replace,
including an explicit null; absent keys retain prior values; a payload
with an unseen date is inserted as a new record; and the A/B example from
the spec yields one record carrying both ph and level. -/
theorem upsert_shallow_merge :
    (∀ old p : HistoryEntry,
      (mergeEntry old p).date = p.date
      ∧ (mergeEntry old p).timestamp = p.timestamp
      ∧ (mergeEntry old p).diagnosis =
          (match p.diagnosis with | some x => some x | none => old.diagnosis)
      ∧ (mergeEntry old p).level = (match p.level with | some x => some x | none => old.level)
      ∧ (mergeEntry old p).ph = (match p.ph with | some x => some x | none => old.ph))
    ∧ (∀ (old : HistoryEntry) (d : String) (t : ℤ),
        (mergeEntry old ⟨d, t, none, none, some none⟩).ph = some none)
    ∧ (∀ (l : List HistoryEntry) (p : HistoryEntry), (∀ e ∈ l, e.date ≠ p.date) →
        List.Perm (upsertHistoryEntry l p) (l ++ [p]))
    ∧ (∀ (l1 l2 : List HistoryEntry) (e p : HistoryEntry),
        (∀ x ∈ l1, x.date ≠ p.date) → e.date = p.date →
        List.Perm (upsertHistoryEntry (l1 ++ e :: l2) p) (l1 ++ mergeEntry e p :: l2))
    ∧ upsertHistoryEntry (upsertHistoryEntry [] ⟨"2025-01-01", 0, none, none, some (some 7)⟩)
        ⟨"2025-01-01", 1, none, some 2, none⟩
        = [⟨"2025-01-01", 1, none, some 2, some (some 7)⟩]
    ∧ (upsertHistoryEntry (upsertHistoryEntry [] ⟨"2025-01-01", 0, none, none, some (some 7)⟩)
        ⟨"2025-01-01", 1, none, some 2, none⟩).length
        = (upsertHistoryEntry [] ⟨"2025-01-01", 0, none, none, some (some 7)⟩).length := by
  refine ⟨?_, ?_, ?_, ?_, ?_, ?_⟩
  · intro old p
    exact ⟨rfl, rfl, rfl, rfl, rfl⟩
  · intro old d t
    rfl
  · intro l p h
    unfold upsertHistoryEntry
    rw [updateFirst_not_found p l h]
    exact sortByTs_perm _
  · intro l1 l2 e p h he
    unfold upsertHistoryEntry
    rw [updateFirst_found p e l1 l2 h he]
    exact sortByTs_perm _
  · rfl
  · rfl

/-- Witness for C3: inserting into the empty log (no matching date) is a
permutation of appending, at the concrete payload A. -/
theorem upsert_shallow_merge_witness :
    (∀ e ∈ ([] : List HistoryEntry), e.date ≠ "2025-01-01")
    ∧ List.Perm
        (upsertHistoryEntry [] ⟨"2025-01-01", 0, none, none, some (some 7)⟩)
        ([] ++ [⟨"2025-01-01", 0, none, none, some (some 7)⟩]) :=
  ⟨fun e he => absurd he (List.not_mem_nil e),
   upsert_shallow_merge.2.2.1 [] ⟨"2025-01-01", 0, none, none, some (some 7)⟩
     (fun e he => absurd he (List.not_mem_nil e))⟩

lemma upsert_dates_nodup (l : List HistoryEntry) (p : HistoryEntry)
    (h : (l.map fun e => e.date).Nodup) :
    ((upsertHistoryEntry l p).map fun e => e.date).Nodup := by
  have hperm : List.Perm ((upsertHistoryEntry l p).map fun e => e.date)
      ((updateFirstByDate p l).map fun e => e.date) :=
    (sortByTs_perm (updateFirstByDate p l)).map _
  exact (updateFirst_dates_nodup p l h).perm hperm.symm

lemma upsertAll_mem_source (ps : List HistoryEntry) :
    ∀ (acc : List HistoryEntry) (P : HistoryEntry → Prop), (∀ e ∈ acc, P e) →
      ∀ x ∈ List.foldl upsertHistoryEntry acc ps,
        P x ∨ ∃ p ∈ ps, x.date = p.date ∧ x.timestamp = p.timestamp := by
  induction ps with
  | nil =>
    intro acc P hacc x hx
    exact Or.inl (hacc x hx)
  | cons p ps ih =>
    intro acc P hacc x hx
    simp only [List.foldl_cons] at hx
    have step : ∀ y ∈ upsertHistoryEntry acc p,
        P y ∨ (y.date = p.date ∧ y.timestamp = p.timestamp) := by
      intro y hy
      have hy' : y ∈ updateFirstByDate p acc :=
        (sortByTs_perm (updateFirstByDate p acc)).subset hy
      rcases mem_updateFirst p acc y hy' with h | h
      · exact Or.inl (hacc y h)
      · exact Or.inr h
    rcases ih (upsertHistoryEntry acc p)
        (fun y => P y ∨ (y.date = p.date ∧ y.timestamp = p.timestamp)) step x hx with h | h
    · rcases h with hP | hp
      · exact Or.inl hP
      · exact Or.inr ⟨p, List.mem_cons_self _ _, hp⟩
    · rcases h with ⟨q, hq, hqx⟩
      exact Or.inr ⟨q, List.mem_cons_of_mem _ hq, hqx⟩

lemma upsertAll_sorted (ps : List HistoryEntry) :
    (upsertAll ps).Pairwise fun a b => a.timestamp ≤ b.timestamp := by
  have gen : ∀ (ps' acc : List HistoryEntry),
      acc.Pairwise (fun a b => a.timestamp ≤ b.timestamp) →
      (List.foldl upsertHistoryEntry acc ps').Pairwise
        (fun a b => a.timestamp ≤ b.timestamp) := by
    intro ps'
    induction ps' with
    | nil => intro acc hacc; exact hacc
    | cons p ps' ih =>
      intro acc _
      simp only [List.foldl_cons]
      exact ih _ (sortByTs_sorted _)
  exact gen ps [] (List.Pairwise.nil)

lemma upsertAll_dates_nodup (ps : List HistoryEntry) :
    ((upsertAll ps).map fun e => e.date).Nodup := by
  have gen : ∀ (ps' acc : List HistoryEntry),
      (acc.map fun e => e.date).Nodup →
      ((List.foldl upsertHistoryEntry acc ps').map fun e => e.date).Nodup := by
    intro ps'
    induction ps' with
    | nil => intro acc hacc; exact hacc
    | cons p ps' ih =>
      intro acc hacc
      simp only [List.foldl_cons]
      exact ih _ (upsert_dates_nodup acc p hacc)
  exact gen ps [] (by simp)

/-- C4 (amended): after any sequence of upserts from the empty log, the
log is sorted ascending (non-strictly) by timestamp with at most one
record per date; each upsert merges (length unchanged) when the date is
already present and otherwise adds exactly one record, and every upsert
is followed by a full resort; when the upserted payloads carry pairwise
distinct timestamps the order is strictly ascending. -/
theorem upsertAll_invariants :
    ∀ ps : List HistoryEntry,
      (upsertAll ps).Pairwise (fun a b => a.timestamp ≤ b.timestamp)
      ∧ ((upsertAll ps).map fun e => e.date).Nodup
      ∧ (∀ (l : List HistoryEntry) (p : HistoryEntry),
          ((∃ e ∈ l, e.date = p.date) → (upsertHistoryEntry l p).length = l.length)
          ∧ ((∀ e ∈ l, e.date ≠ p.date) → (upsertHistoryEntry l p).length = l.length + 1))
      ∧ (∀ (l : List HistoryEntry) (p : HistoryEntry),
          upsertHistoryEntry l p = sortByTs (updateFirstByDate p l))
      ∧ ((ps.map fun e => e.timestamp).Nodup →
          (upsertAll ps).Pairwise (fun a b => a.timestamp < b.timestamp)) := by
  intro ps
  refine ⟨upsertAll_sorted ps, upsertAll_dates_nodup ps, ?_, fun _ _ => rfl, ?_⟩
  · intro l p
    constructor
    · intro hex
      have hlen := (sortByTs_perm (updateFirstByDate p l)).length_eq
      unfold upsertHistoryEntry
      rw [hlen, updateFirst_length_found p l hex]
    · intro hall
      have hlen := (sortByTs_perm (updateFirstByDate p l)).length_eq
      unfold upsertHistoryEntry
      rw [hlen, updateFirst_not_found p l hall]
      simp
  · intro hts
    have hsorted := upsertAll_sorted ps
    have hdates : (upsertAll ps).Pairwise fun a b => a.date ≠ b.date :=
      List.pairwise_map.mp (upsertAll_dates_nodup ps)
    have hsrc : ∀ x ∈ upsertAll ps, ∃ p ∈ ps, x.date = p.date ∧ x.timestamp = p.timestamp := by
      intro x hx
      rcases upsertAll_mem_source ps [] (fun _ => False) (by simp) x hx with h | h
      · exact absurd h not_false
      · exact h
    refine (hsorted.and hdates).imp_of_mem ?_
    intro a b ha hb hab
    rcases hab with ⟨hle, hne⟩
    rcases hsrc a ha with ⟨pa, hpa, hda, hta⟩
    rcases hsrc b hb with ⟨pb, hpb, hdb, htb⟩
    have hpne : pa ≠ pb := by
      intro hcon
      apply hne
      rw [hda, hdb, hcon]
    have htsne : pa.timestamp ≠ pb.timestamp := by
      intro hcon
      exact hpne (List.inj_on_of_nodup_map hts hpa hpb hcon)
    have : a.timestamp ≠ b.timestamp := by
      rw [hta, htb]
      exact htsne
    omega

/-- Witness for C4 with distinct payload timestamps: two upserts with
timestamps 5 and 3 yield a strictly ascending two-record log. -/
theorem upsertAll_invariants_witness :
    (([⟨"2025-01-01", 5, none, none, none⟩,
       ⟨"2025-01-02", 3, none, none, none⟩] : List HistoryEntry).map
        fun e => e.timestamp).Nodup
    ∧ (upsertAll [⟨"2025-01-01", 5, none, none, none⟩,
        ⟨"2025-01-02", 3, none, none, none⟩]).Pairwise
          (fun a b => a.timestamp < b.timestamp) :=
  ⟨by decide,
   (upsertAll_invariants [⟨"2025-01-01", 5, none, none, none⟩,
      ⟨"2025-01-02", 3, none, none, none⟩]).2.2.2.2 (by decide)⟩

/-- C4 counterexample: the claim's strict ascent fails as stated — two
upserted payloads with different dates but the same timestamp leave the
log sorted only non-strictly (two equal timestamps). -/
theorem upsert_strict_ascending_counterexample :
    ¬ (upsertAll [⟨"2025-01-01", 0, none, none, none⟩,
        ⟨"2025-01-02", 0, none, none, none⟩]).Pairwise
          (fun a b : HistoryEntry => a.timestamp < b.timestamp) := by
  decide

/-! ## Region sampler: ROI accumulation with full-frame fallback -/

/-- One decoded pixel (the alpha byte is never read by the analysis). -/
structure Pixel where
  r : ℕ
  g : ℕ
  b : ℕ
deriving DecidableEq

/-- BT.709 luma, exactly as computed in the source. -/
def lumaQ (p : Pixel) : ℚ := 0.2126 * p.r + 0.7152 * p.g + 0.0722 * p.b

/-- The `ANALYZE_OPTIONS` fields read by the analysis (`roiFrac` embeds
the source's ROI-ratio field; the unused blue-channel flag is omitted). -/
structure AnalyzeOptions where
  roiFrac : ℚ
  minLuma : ℚ
  maxLuma : ℚ

/-- `ANALYZE_OPTIONS` values from the source. -/
def analyzeOpts : AnalyzeOptions := ⟨0.5, 15, 245⟩

/-- A pixel is accumulated iff its luma is inside [lo, hi]
(the source skips it when `luma < lo || luma > hi`). -/
def pixelValidB (lo hi : ℚ) (p : Pixel) : Bool := decide (lo ≤ lumaQ p ∧ lumaQ p ≤ hi)

/-- The pixels a scan accumulates: those with luma inside the bounds. -/
def validPixels (lo hi : ℚ) (ps : List Pixel) : List Pixel := ps.filter (pixelValidB lo hi)

/-- ROI side length: `Math.floor(dimension · ratio)`. -/
def roiSide (n : ℕ) (frac : ℚ) : ℕ := (⌊(n : ℚ) * frac⌋).toNat

/-- ROI offset: `Math.floor((dimension − side)/2)` (ℕ division floors). -/
def roiOff (n side : ℕ) : ℕ := (n - side) / 2

/-- The centered ROI scan order: `roiW = floor(W·frac)`,
`offX = floor((W−roiW)/2)`, pixel index `(y*W+x)` row-major. -/
def roiPixels (W H : ℕ) (data : ℕ → Pixel) (frac : ℚ) : List Pixel :=
  (List.range (roiSide H frac)).flatMap fun dy =>
    (List.range (roiSide W frac)).map fun dx =>
      data ((roiOff H (roiSide H frac) + dy) * W + (roiOff W (roiSide W frac) + dx))

/-- The full-frame scan order (every pixel of the buffer). -/
def allPixels (W H : ℕ) (data : ℕ → Pixel) : List Pixel :=
  (List.range (W * H)).map data

/-- Sum of the red channel over a pixel list. -/
def sumR (ps : List Pixel) : ℕ := (ps.map fun p => p.r).sum

/-- Sum of the green channel over a pixel list. -/
def sumG (ps : List Pixel) : ℕ := (ps.map fun p => p.g).sum

/-- Sum of the blue channel over a pixel list. -/
def sumB (ps : List Pixel) : ℕ := (ps.map fun p => p.b).sum

/-- Channel-wise rounded average (`n ? Math.round(sum/n) : 0`). -/
def sampleFrom (ps : List Pixel) : Pixel :=
  if ps.length = 0 then ⟨0, 0, 0⟩
  else
    ⟨(jsRound ((sumR ps : ℚ) / ps.length)).toNat,
     (jsRound ((sumG ps : ℚ) / ps.length)).toNat,
     (jsRound ((sumB ps : ℚ) / ps.length)).toNat⟩

/-- The sampling stage of `analyzeImageForHSV`: ROI accumulation with the
configured bounds; if fewer than 50 pixels qualify, discard and rescan the
whole frame with fixed bounds [10, 245]. -/
def sampleImage (W H : ℕ) (data : ℕ → Pixel) (opts : AnalyzeOptions) : Pixel :=
  sampleFrom
    (if (validPixels opts.minLuma opts.maxLuma (roiPixels W H data opts.roiFrac)).length < 50
     then validPixels 10 245 (allPixels W H data)
     else validPixels opts.minLuma opts.maxLuma (roiPixels W H data opts.roiFrac))

/-- `analyzeImageForHSV` on the decoded 300×300 canvas: sampled color
converted to HSV, plus the raw sampled blue channel. -/
def analyzeImageForHSV (data : ℕ → Pixel) : HSV × ℕ :=
  let p := sampleImage 300 300 data analyzeOpts
  (rgbToHsvDeg p.r p.g p.b, p.b)

lemma validPixels_luma_lb (lo hi : ℚ) (ps : List Pixel) :
    ∀ p ∈ validPixels lo hi ps, lo ≤ lumaQ p := by
  intro p hp
  rw [validPixels, List.mem_filter] at hp
  have h := of_decide_eq_true hp.2
  exact h.1

lemma luma_sum_lb (ps : List Pixel) (h : ∀ p ∈ ps, (10 : ℚ) ≤ lumaQ p) :
    (10 : ℚ) * ps.length ≤ 0.2126 * sumR ps + 0.7152 * sumG ps + 0.0722 * sumB ps := by
  induction ps with
  | nil => simp [sumR, sumG, sumB]
  | cons p ps ih =>
    have hp := h p (List.mem_cons_self p ps)
    have ih' := ih fun q hq => h q (List.mem_cons_of_mem p hq)
    unfold lumaQ at hp
    simp only [sumR, sumG, sumB, List.map_cons, List.sum_cons, List.length_cons] at *
    push_cast at *
    linarith

lemma jsRound_toNat_zero_lt {s : ℕ} {n : ℕ} (hn : 0 < n)
    (h : (jsRound ((s : ℚ) / n)).toNat = 0) : (s : ℚ) < (1 / 2) * n := by
  have h0 : jsRound ((s : ℚ) / n) ≤ 0 := Int.toNat_eq_zero.mp h
  unfold jsRound at h0
  rw [Int.floor_le_iff] at h0
  push_cast at h0
  have hdiv : (s : ℚ) / n < 1 / 2 := by linarith
  have hnpos : (0 : ℚ) < n := by positivity
  calc (s : ℚ) = (s : ℚ) / n * n := by field_simp
    _ < 1 / 2 * n := by
        apply mul_lt_mul_of_pos_right hdiv hnpos

lemma sampleFrom_nondegenerate (ps : List Pixel) (hn : 0 < ps.length)
    (hmem : ∀ p ∈ ps, (10 : ℚ) ≤ lumaQ p) : sampleFrom ps ≠ ⟨0, 0, 0⟩ := by
  intro hcon
  have hne : ¬ ps.length = 0 := by omega
  unfold sampleFrom at hcon
  rw [if_neg hne] at hcon
  rw [Pixel.mk.injEq] at hcon
  obtain ⟨hr, hg, hb⟩ := hcon
  have hR := jsRound_toNat_zero_lt hn hr
  have hG := jsRound_toNat_zero_lt hn hg
  have hB := jsRound_toNat_zero_lt hn hb
  have hlb := luma_sum_lb ps hmem
  have hone : (1 : ℚ) ≤ ps.length := by
    have : (1 : ℕ) ≤ ps.length := hn
    exact_mod_cast this
  linarith

/-- C7: whenever the centered-ROI scan accumulates fewer than 50 valid
pixels, the sampler discards it and the result equals the channel-wise
rounded average over the full-frame pixels with luma in [10, 245]; and
when that full-frame scan has at least 50 valid pixels, it is nonempty
and the sample is non-degenerate (not (0,0,0)). -/
theorem sampler_fallback :
    ∀ (opts : AnalyzeOptions) (W H : ℕ) (data : ℕ → Pixel),
      (validPixels opts.minLuma opts.maxLuma (roiPixels W H data opts.roiFrac)).length < 50 →
      sampleImage W H data opts = sampleFrom (validPixels 10 245 (allPixels W H data))
      ∧ (50 ≤ (validPixels 10 245 (allPixels W H data)).length →
          0 < (validPixels 10 245 (allPixels W H data)).length
          ∧ sampleImage W H data opts ≠ ⟨0, 0, 0⟩) := by
  intro opts W H data hroi
  have heq : sampleImage W H data opts = sampleFrom (validPixels 10 245 (allPixels W H data)) := by
    unfold sampleImage
    rw [if_pos hroi]
  refine ⟨heq, ?_⟩

  intro hfull
  have hpos : 0 < (validPixels 10 245 (allPixels W H data)).length := by omega
  refine ⟨hpos, ?_⟩
  rw [heq]
  exact sampleFrom_nondegenerate _ hpos (validPixels_luma_lb 10 245 _)

/-- A uniform mid-gray test frame. -/
def constPix : ℕ → Pixel := fun _ => ⟨100, 100, 100⟩

lemma roiPixels_50_1_empty : roiPixels 50 1 constPix analyzeOpts.roiFrac = [] := by
  have hside : roiSide 1 analyzeOpts.roiFrac = 0 := by
    unfold roiSide
    have h2 : ((1 : ℕ) : ℚ) * analyzeOpts.roiFrac = 1/2 := by
      norm_num [analyzeOpts]
    rw [h2]
    have h3 : ⌊(1/2 : ℚ)⌋ = 0 := by
      rw [Int.floor_eq_iff]
      norm_num
    rw [h3]
    rfl
  unfold roiPixels
  rw [hside]
  rfl

lemma constPix_all_valid :
    validPixels 10 245 (allPixels 50 1 constPix) = allPixels 50 1 constPix := by
  unfold validPixels
  rw [List.filter_eq_self]
  intro p hp
  rcases List.mem_map.mp hp with ⟨i, -, rfl⟩
  unfold pixelValidB constPix
  rw [decide_eq_true_eq]
  constructor
  · norm_num [lumaQ]
  · norm_num [lumaQ]

lemma allPixels_50_1_length : (allPixels 50 1 constPix).length = 50 := by
  unfold allPixels
  rw [List.length_map, List.length_range]

/-- Witness for C7 on a 50×1 uniform frame with the configured options:
the ROI height floors to zero so the ROI accumulates 0 (< 50) pixels,
the full frame has 50 (≥ 50) valid pixels, and the fallback sample is
non-degenerate. -/
theorem sampler_fallback_witness :
    (validPixels analyzeOpts.minLuma analyzeOpts.maxLuma
      (roiPixels 50 1 constPix analyzeOpts.roiFrac)).length < 50
    ∧ 50 ≤ (validPixels 10 245 (allPixels 50 1 constPix)).length
    ∧ (0 < (validPixels 10 245 (allPixels 50 1 constPix)).length
       ∧ sampleImage 50 1 constPix analyzeOpts ≠ ⟨0, 0, 0⟩) :=
  ⟨by rw [roiPixels_50_1_empty]; simp [validPixels],
   by rw [constPix_all_valid, allPixels_50_1_length],
   (sampler_fallback analyzeOpts 50 1 constPix
      (by rw [roiPixels_50_1_empty]; simp [validPixels])).2
     (by rw [constPix_all_valid, allPixels_50_1_length])⟩

/-! ## Derived views: per-date merge map, calendar lookup, stats series -/

/-- JS `Map.set`: replace in place if the key exists, else append. -/
def mapSet (m : List (String × HistoryEntry)) (k : String) (v : HistoryEntry) :
    List (String × HistoryEntry) :=
  match m with
  | [] => [(k, v)]
  | (k0, v0) :: rest => if k0 = k then (k0, v) :: rest else (k0, v0) :: mapSet rest k v

/-- JS `Map.get`: first entry with the key, if any. -/
def mapGet (m : List (String × HistoryEntry)) (k : String) : Option HistoryEntry :=
  match m with
  | [] => none
  | (k0, v0) :: rest => if k0 = k then some v0 else mapGet rest k

/-- One step of the per-date merge loop:
`m.set(e.date, { ...m.get(e.date), ...e })`. -/
def viewMergeStep (m : List (String × HistoryEntry)) (e : HistoryEntry) :
    List (String × HistoryEntry) :=
  mapSet m e.date (match mapGet m e.date with | some prev => mergeEntry prev e | none => e)

/-- The `byDate` map both `CalendarPage` and `StatsPage` build: entries
sorted ascending by timestamp, folded into a map keyed by date. -/
def viewByDate (history : List HistoryEntry) : List (String × HistoryEntry) :=
  (sortByTs history).foldl viewMergeStep []

/-- The calendar cell lookup `byDate.get(d)`. -/
def calendarLookup (history : List HistoryEntry) (d : String) : Option HistoryEntry :=
  mapGet (viewByDate history) d

/-- Merging one more entry into an optional accumulated record. -/
def mergeStepO (acc : Option HistoryEntry) (e : HistoryEntry) : Option HistoryEntry :=
  some (match acc with | some a => mergeEntry a e | none => e)

/-- The merged record a run of same-date entries produces, in order. -/
def mergeRun (l : List HistoryEntry) : Option HistoryEntry := l.foldl mergeStepO none

/-- One point of the stats time series. -/
structure StatsPoint where
  date : String
  level : Option ℕ
  ph : Option ℕ
deriving DecidableEq

/-- `{date, level != null ? level + 1 : null, ph ?? null}` per merged record. -/
def statsProject (e : HistoryEntry) : StatsPoint :=
  ⟨e.date,
   match e.level with | some lv => some (lv + 1) | none => none,
   match e.ph with | some x => x | none => none⟩

/-- Comparator of the stats sort: ascending by date string
(`localeCompare`; for the ASCII `YYYY-MM-DD` keys this is lexicographic). -/
def ltDate (a b : HistoryEntry) : Bool := decide (a.date < b.date)

/-- The `Array.from(m.values()).sort(...)` step of the stats series. -/
def sortEntriesByDate (l : List HistoryEntry) : List HistoryEntry := insSort ltDate l

/-- `lineData` of `StatsPage`: merged per-date records sorted ascending by
date string, projected to chart points. -/
def statsSeries (history : List HistoryEntry) : List StatsPoint :=
  (sortEntriesByDate ((viewByDate history).map Prod.snd)).map statsProject

lemma ltDate_asymm : ∀ a b, ltDate a b = true → ltDate b a = false := by
  intro a b h
  simp only [ltDate, decide_eq_true_eq] at h
  simp only [ltDate, decide_eq_false_iff_not]
  exact lt_asymm h

lemma ltDate_trans : ∀ a b c, ltDate b a = false → ltDate c b = false → ltDate c a = false := by
  intro a b c h1 h2
  simp only [ltDate, decide_eq_false_iff_not] at h1 h2 ⊢
  exact not_lt.mpr (le_trans (not_lt.mp h1) (not_lt.mp h2))

lemma mapGet_mapSet (m : List (String × HistoryEntry)) (k : String) (v : HistoryEntry)
    (k' : String) :
    mapGet (mapSet m k v) k' = if k = k' then some v else mapGet m k' := by
  induction m with
  | nil =>
    simp only [mapSet, mapGet]
  | cons kv rest ih =>
    obtain ⟨k0, v0⟩ := kv
    by_cases h0 : k0 = k
    · subst h0
      simp only [mapSet, if_pos rfl, mapGet]
      by_cases h' : k0 = k'
      · rw [if_pos h', if_pos h']
      · rw [if_neg h', if_neg h', if_neg h']
    · simp only [mapSet, if_neg h0, mapGet]
      by_cases h' : k0 = k'
      · have hkk' : ¬ k = k' := fun hc => h0 (hc ▸ h')
        rw [if_pos h', if_neg hkk', if_pos h']
      · rw [if_neg h', if_neg h', ih]

lemma mem_mapSet {m : List (String × HistoryEntry)} {k : String} {v : HistoryEntry}
    {x : String × HistoryEntry} (hx : x ∈ mapSet m k v) : x ∈ m ∨ x = (k, v) := by
  induction m with
  | nil =>
    simp only [mapSet, List.mem_singleton] at hx
    exact Or.inr hx
  | cons kv rest ih =>
    obtain ⟨k0, v0⟩ := kv
    by_cases h0 : k0 = k
    · subst h0
      simp only [mapSet, if_pos rfl] at hx
      rcases List.mem_cons.mp hx with rfl | hx'
      · exact Or.inr rfl
      · exact Or.inl (List.mem_cons_of_mem _ hx')
    · simp only [mapSet, if_neg h0] at hx
      rcases List.mem_cons.mp hx with rfl | hx'
      · exact Or.inl (List.mem_cons_self _ _)
      · rcases ih hx' with h | h
        · exact Or.inl (List.mem_cons_of_mem _ h)
        · exact Or.inr h

lemma mapSet_keys_nodup (k : String) (v : HistoryEntry) :
    ∀ m : List (String × HistoryEntry), (m.map Prod.fst).Nodup →
      ((mapSet m k v).map Prod.fst).Nodup := by
  intro m
  induction m with
  | nil =>
    intro _
    simp [mapSet]
  | cons kv rest ih =>
    obtain ⟨k0, v0⟩ := kv
    intro h
    rw [List.map_cons, List.nodup_cons] at h
    obtain ⟨hk0, hrest⟩ := h
    by_cases h0 : k0 = k
    · subst h0
      have hset : mapSet ((k0, v0) :: rest) k0 v = (k0, v) :: rest := by
        simp [mapSet]
      rw [hset, List.map_cons, List.nodup_cons]
      exact ⟨hk0, hrest⟩
    · simp only [mapSet, if_neg h0, List.map_cons, List.nodup_cons]
      refine ⟨?_, ih hrest⟩
      intro hmem
      rcases List.mem_map.mp hmem with ⟨x, hxmem, hxfst⟩
      rcases mem_mapSet hxmem with hx | hx
      · exact hk0 (List.mem_map.mpr ⟨x, hx, hxfst⟩)
      · subst hx
        exact h0 hxfst.symm

lemma mapGet_isSome_iff_keys (k : String) :
    ∀ m : List (String × HistoryEntry),
      ((mapGet m k).isSome = true ↔ k ∈ m.map Prod.fst) := by
  intro m
  induction m with
  | nil => simp [mapGet]
  | cons kv rest ih =>
    obtain ⟨k0, v0⟩ := kv
    by_cases h0 : k0 = k
    · subst h0
      simp [mapGet]
    · simp only [mapGet, if_neg h0, List.map_cons, List.mem_cons]
      rw [ih]
      constructor
      · exact fun h => Or.inr h
      · rintro (rfl | h)
        · exact absurd rfl h0
        · exact h

lemma foldl_view_get (d : String) :
    ∀ (l : List HistoryEntry) (m : List (String × HistoryEntry)),
      mapGet (l.foldl viewMergeStep m) d =
        (l.filter fun e => e.date == d).foldl mergeStepO (mapGet m d) := by
  intro l
  induction l with
  | nil => intro m; rfl
  | cons e rest ih =>
    intro m
    simp only [List.foldl_cons, List.filter_cons]
    rw [ih]
    by_cases hd : e.date = d
    · rw [if_pos (beq_iff_eq.mpr hd)]
      simp only [List.foldl_cons]
      congr 1
      unfold viewMergeStep
      rw [mapGet_mapSet, if_pos hd, hd]
      rfl
    · rw [if_neg (fun hc => hd (beq_iff_eq.mp hc))]
      congr 1
      unfold viewMergeStep
      rw [mapGet_mapSet, if_neg hd]

lemma viewByDate_keys_nodup (history : List HistoryEntry) :
    ((viewByDate history).map Prod.fst).Nodup := by
  have gen : ∀ (l : List HistoryEntry) (m : List (String × HistoryEntry)),
      (m.map Prod.fst).Nodup → ((l.foldl viewMergeStep m).map Prod.fst).Nodup := by
    intro l
    induction l with
    | nil => intro m hm; exact hm
    | cons e rest ih =>
      intro m hm
      simp only [List.foldl_cons]
      exact ih _ (mapSet_keys_nodup _ _ m hm)
  exact gen (sortByTs history) [] (by simp)

lemma viewByDate_kv_date (history : List HistoryEntry) :
    ∀ kv ∈ viewByDate history, kv.2.date = kv.1 := by
  have gen : ∀ (l : List HistoryEntry) (m : List (String × HistoryEntry)),
      (∀ kv ∈ m, kv.2.date = kv.1) →
      ∀ kv ∈ l.foldl viewMergeStep m, kv.2.date = kv.1 := by
    intro l
    induction l with
    | nil => intro m hm; exact hm
    | cons e rest ih =>
      intro m hm
      simp only [List.foldl_cons]
      apply ih
      intro kv hkv
      rcases mem_mapSet hkv with h | h
      · exact hm kv h
      · subst h
        show (match mapGet m e.date with
          | some prev => mergeEntry prev e | none => e).date = e.date
        cases mapGet m e.date with
        | some prev => rfl
        | none => rfl
  exact gen (sortByTs history) [] (by simp)

lemma foldl_mergeStepO_isSome (l : List HistoryEntry) :
    ∀ a : HistoryEntry, ((l.foldl mergeStepO (some a)).isSome = true) := by
  induction l with
  | nil => intro a; rfl
  | cons e rest ih =>
    intro a
    simp only [List.foldl_cons]
    exact ih (mergeEntry a e)

lemma mergeRun_isSome_iff (l : List HistoryEntry) :
    (mergeRun l).isSome = true ↔ l ≠ [] := by
  cases l with
  | nil => simp [mergeRun]
  | cons e rest =>
    simp only [mergeRun, List.foldl_cons]
    constructor
    · intro _
      exact List.cons_ne_nil e rest
    · intro _
      exact foldl_mergeStepO_isSome rest e

lemma statsSeries_dates (history : List HistoryEntry) :
    (statsSeries history).map (fun pt => pt.date) =
      (sortEntriesByDate ((viewByDate history).map Prod.snd)).map (fun e => e.date) := by
  unfold statsSeries
  rw [List.map_map]
  rfl

lemma sorted_vals_dates_nodup (history : List HistoryEntry) :
    ((sortEntriesByDate ((viewByDate history).map Prod.snd)).map fun e => e.date).Nodup := by
  have hperm : List.Perm
      ((sortEntriesByDate ((viewByDate history).map Prod.snd)).map fun e => e.date)
      (((viewByDate history).map Prod.snd).map fun e => e.date) :=
    (insSort_perm ltDate _).map _
  have hvals : (((viewByDate history).map Prod.snd).map fun e => e.date) =
      (viewByDate history).map Prod.fst := by
    rw [List.map_map]
    apply List.map_congr_left
    intro kv hkv
    exact viewByDate_kv_date history kv hkv
  refine List.Nodup.perm ?_ hperm.symm
  rw [hvals]
  exact viewByDate_keys_nodup history

/-- C10: over any history list (duplicate dates and disorder included),
the per-date map both views build has no duplicate date keys; the
calendar lookup of a date is the fold of present-field overrides over the
timestamp-sorted entries of that date (later entries override earlier
ones), and it is populated exactly for dates present in the history; the
stats series has strictly ascending date strings — hence exactly one
point per distinct date of the history. -/
theorem views_merge_by_date :
    ∀ history : List HistoryEntry,
      ((viewByDate history).map Prod.fst).Nodup
      ∧ (∀ d : String, calendarLookup history d =
          mergeRun ((sortByTs history).filter fun e => e.date == d))
      ∧ (∀ d : String, ((calendarLookup history d).isSome = true ↔ ∃ e ∈ history, e.date = d))
      ∧ (statsSeries history).Pairwise (fun a b => a.date < b.date)
      ∧ (∀ d : String, ((∃ pt ∈ statsSeries history, pt.date = d) ↔ ∃ e ∈ history, e.date = d)) := by
  intro history
  have hlookup : ∀ d : String, calendarLookup history d =
      mergeRun ((sortByTs history).filter fun e => e.date == d) := by
    intro d
    unfold calendarLookup viewByDate mergeRun
    exact foldl_view_get d (sortByTs history) []
  have hsome : ∀ d : String,
      ((calendarLookup history d).isSome = true ↔ ∃ e ∈ history, e.date = d) := by
    intro d
    rw [hlookup d, mergeRun_isSome_iff]
    rw [Ne, List.filter_eq_nil_iff]
    push_neg
    constructor
    · rintro ⟨e, he, hbe⟩
      exact ⟨e, (sortByTs_perm history).mem_iff.mp he, beq_iff_eq.mp hbe⟩
    · rintro ⟨e, he, hd⟩
      exact ⟨e, (sortByTs_perm history).mem_iff.mpr he, beq_iff_eq.mpr hd⟩
  refine ⟨viewByDate_keys_nodup history, hlookup, hsome, ?_, ?_⟩
  · have hsorted := insSort_pairwise ltDate ltDate_asymm ltDate_trans
      ((viewByDate history).map Prod.snd)
    have hle : (sortEntriesByDate ((viewByDate history).map Prod.snd)).Pairwise
        fun a b => a.date ≤ b.date := by
      refine hsorted.imp ?_
      intro a b hab
      simp only [ltDate, decide_eq_false_iff_not] at hab
      exact not_lt.mp hab
    have hne : (sortEntriesByDate ((viewByDate history).map Prod.snd)).Pairwise
        fun a b => a.date ≠ b.date :=
      List.pairwise_map.mp (sorted_vals_dates_nodup history)
    have hlt : (sortEntriesByDate ((viewByDate history).map Prod.snd)).Pairwise
        fun a b => a.date < b.date :=
      (hle.and hne).imp fun hab => lt_of_le_of_ne hab.1 hab.2
    unfold statsSeries
    rw [List.pairwise_map]
    exact hlt
  · intro d
    have hmem : (∃ pt ∈ statsSeries history, pt.date = d) ↔
        d ∈ (statsSeries history).map fun pt => pt.date := List.mem_map.symm
    rw [hmem, statsSeries_dates]
    have hperm : List.Perm
        ((sortEntriesByDate ((viewByDate history).map Prod.snd)).map fun e => e.date)
        (((viewByDate history).map Prod.snd).map fun e => e.date) :=
      (insSort_perm ltDate _).map _
    rw [hperm.mem_iff]
    have hvals : (((viewByDate history).map Prod.snd).map fun e => e.date) =
        (viewByDate history).map Prod.fst := by
      rw [List.map_map]
      apply List.map_congr_left
      intro kv hkv
      exact viewByDate_kv_date history kv hkv
    rw [hvals]
    rw [← mapGet_isSome_iff_keys d (viewByDate history)]
    exact hsome d

end SmartPad
